import Mathlib

/-!
Verification of the dartforge Telnet bridge core.

The Telnet codec (`src/src-tauri/src/ansi.rs`, `process_output`) is embedded
as a recursive function over byte lists.  Machine bytes (`u8`) are modelled
as `Nat` values below 256; none of the codec's arithmetic overflows, so no
modular reduction is needed.  The `display` field of `ProcessedOutput` holds
the accumulated display bytes (`display_bytes` in the Rust source); the Rust
code converts that byte buffer with `String::from_utf8_lossy` only when
packaging the result, so all content-level reasoning happens on the bytes.

The connection-lifecycle code (`src/proxy/src/main.rs`,
`src/src-tauri/src/connection.rs`) performs network I/O; it is embedded by
abstracting each effect into data: connection attempts become an outcome
oracle `ok : Nat → α → Bool` over rounds and resolved addresses, reads become
a list of `ReadRes` outcomes, and every emitted status/output/write becomes
an event in a result trace, in the order the code performs the effects.
-/

namespace Dartforge

/-- Telnet protocol constants (ansi.rs lines 1-8). -/
def IAC : Nat := 0xFF

def WILL : Nat := 0xFB

def WONT : Nat := 0xFC

def DO : Nat := 0xFD

def DONT : Nat := 0xFE

def SB : Nat := 0xFA

def SE : Nat := 0xF0

/-- Go-ahead command byte (0xF9), handled by the generic two-byte skip arm in
`ansi.rs` and, in the proxy crate's codec, additionally surfaced as a flag. -/
def GA : Nat := 0xF9

/-- Result of processing raw MUD output (ansi.rs lines 13-19).
`display` is the accumulated display byte buffer (the Rust code applies
`String::from_utf8_lossy` to it when returning), `responses` the Telnet
replies to send back, `remainder` the unconsumed trailing partial IAC
sequence. -/
structure ProcessedOutput where
  display : List Nat
  responses : List (List Nat)
  remainder : List Nat
  deriving Repr, DecidableEq

/-- The subnegotiation terminator search (ansi.rs lines 69-78): starting at
the byte after `IAC SB`, advance one byte at a time until an `IAC` immediately
followed by `SE` is found; return the bytes after that pair, or `none` when
the buffer ends first (including when a lone `IAC` is the final byte). -/
def skipSB : List Nat → Option (List Nat)
  | a :: b :: t => if a = IAC ∧ b = SE then some t else skipSB (b :: t)
  | _ => none

/-- The Telnet codec scan (ansi.rs lines 25-104, `process_output`).  The Rust
index loop is rendered as recursion on the byte list: each arm consumes the
same bytes the corresponding `match raw[i + 1]` arm advances over. -/
def process_output (raw : List Nat) : ProcessedOutput :=
  match raw with
  | [] => ⟨[], [], []⟩
  | b :: rest =>
    if b = IAC then
      match rest with
      | [] => ⟨[], [], [IAC]⟩
      | c :: rest2 =>
        if c = IAC then
          let r := process_output rest2
          ⟨IAC :: r.display, r.responses, r.remainder⟩
        else if c = DO ∨ c = WILL ∨ c = WONT ∨ c = DONT then
          match rest2 with
          | [] => ⟨[], [], [IAC, c]⟩
          | opt :: rest3 =>
            let r := process_output rest3
            if c = DO then ⟨r.display, [IAC, WONT, opt] :: r.responses, r.remainder⟩
            else if c = WILL then ⟨r.display, [IAC, DONT, opt] :: r.responses, r.remainder⟩
            else ⟨r.display, r.responses, r.remainder⟩
        else if c = SB then
          match h : skipSB rest2 with
          | some t => process_output t
          | none => ⟨[], [], IAC :: SB :: rest2⟩
        else
          process_output rest2
    else
      let r := process_output rest
      ⟨b :: r.display, r.responses, r.remainder⟩
termination_by raw.length
decreasing_by
  all_goals simp_wf
  all_goals try omega
  all_goals
    have hlen : ∀ (l t2 : List Nat), skipSB l = some t2 → t2.length < l.length := by
      intro l
      induction l with
      | nil => intro t2 h2; simp [skipSB] at h2
      | cons a l ihl =>
        intro t2 h2
        cases l with
        | nil => simp [skipSB] at h2
        | cons b l' =>
          rw [skipSB] at h2
          split at h2
          · cases h2
            simp only [List.length_cons]
            omega
          · have := ihl t2 h2
            simp only [List.length_cons] at this ⊢
            omega
    exact Nat.lt_trans (hlen _ _ h) (by omega)

/-- The three shapes of a trailing partial IAC sequence (ansi.rs lines 33-39,
49-56, 79-86): a lone escape marker, an incomplete 3-byte negotiation, or a
subnegotiation block with no `IAC SE` terminator. -/
def IncompleteSeq (rem : List Nat) : Prop :=
  rem = [IAC] ∨ (∃ c, rem = [IAC, c] ∧ (c = DO ∨ c = WILL ∨ c = WONT ∨ c = DONT)) ∨
    ∃ s, rem = IAC :: SB :: s ∧ skipSB s = none

/-- `noSE l = true` when no `IAC` immediately followed by `SE` occurs in `l`,
i.e. the terminator search would not stop anywhere inside `l`. -/
def noSE : List Nat → Bool
  | a :: b :: t => if a = IAC ∧ b = SE then false else noSE (b :: t)
  | _ => true

/-- Result of the proxy crate's codec, as consumed at proxy/src/main.rs lines
246-264 (`processed.display`, `processed.responses`, `processed.remainder`,
`processed.ga`). -/
structure ProxyProcessedOutput where
  display : List Nat
  responses : List (List Nat)
  remainder : List Nat
  ga : Bool
  deriving Repr, DecidableEq

/-- Modelled from the spec: the proxy crate's Telnet codec (the `ansi` module
declared in proxy/src/main.rs line 1; its source file `proxy/src/ansi.rs` is
not among the given sources, only its caller is).  Per spec §4.1 it performs
the same left-to-right scan as `process_output`, and for the two-byte commands
"the byte sequence is consumed and discarded; if the command is the go-ahead
marker, the *current* `display` accumulation is considered to end on a prompt
boundary — surfaced as a boolean on the produced output unit once emitted
downstream".  The `ga` flag is therefore true exactly when a complete
`IAC GA` command is consumed during the invocation. -/
def proxy_process_output (raw : List Nat) : ProxyProcessedOutput :=
  match raw with
  | [] => ⟨[], [], [], false⟩
  | b :: rest =>
    if b = IAC then
      match rest with
      | [] => ⟨[], [], [IAC], false⟩
      | c :: rest2 =>
        if c = IAC then
          let r := proxy_process_output rest2
          ⟨IAC :: r.display, r.responses, r.remainder, r.ga⟩
        else if c = DO ∨ c = WILL ∨ c = WONT ∨ c = DONT then
          match rest2 with
          | [] => ⟨[], [], [IAC, c], false⟩
          | opt :: rest3 =>
            let r := proxy_process_output rest3
            if c = DO then ⟨r.display, [IAC, WONT, opt] :: r.responses, r.remainder, r.ga⟩
            else if c = WILL then
              ⟨r.display, [IAC, DONT, opt] :: r.responses, r.remainder, r.ga⟩
            else ⟨r.display, r.responses, r.remainder, r.ga⟩
        else if c = SB then
          match h : skipSB rest2 with
          | some t => proxy_process_output t
          | none => ⟨[], [], IAC :: SB :: rest2, false⟩
        else
          let r := proxy_process_output rest2
          ⟨r.display, r.responses, r.remainder, decide (c = GA) || r.ga⟩
    else
      let r := proxy_process_output rest
      ⟨b :: r.display, r.responses, r.remainder, r.ga⟩
termination_by raw.length
decreasing_by
  all_goals simp_wf
  all_goals try omega
  all_goals
    have hlen : ∀ (l t2 : List Nat), skipSB l = some t2 → t2.length < l.length := by
      intro l
      induction l with
      | nil => intro t2 h2; simp [skipSB] at h2
      | cons a l ihl =>
        intro t2 h2
        cases l with
        | nil => simp [skipSB] at h2
        | cons b l' =>
          rw [skipSB] at h2
          split at h2
          · cases h2
            simp only [List.length_cons]
            omega
          · have := ihl t2 h2
            simp only [List.length_cons] at this ⊢
            omega
    exact Nat.lt_trans (hlen _ _ h) (by omega)

/-- Connection retry constants (connection.rs lines 15-17, proxy/src/main.rs
lines 17-19). -/
def MAX_RETRIES : Nat := 3

def RETRY_DELAY_SECS : Nat := 2

def CONNECT_TIMEOUT_SECS : Nat := 10

/-- Status messages emitted by the Upstream Connector, abstracted from the
formatted strings of connect_to_mud (proxy/src/main.rs lines 114-170). -/
inductive StatusMsg where
  | connecting : StatusMsg
  | connected : StatusMsg
  | retrying : Nat → StatusMsg
  | failed : Nat → StatusMsg
  | dnsFailed : StatusMsg
  deriving Repr, DecidableEq

/-- Observable events of one `connect_to_mud` run: a status message sent to
the client, a connection attempt to one resolved address (each attempt uses
the fixed `CONNECT_TIMEOUT_SECS` timeout), or an inter-round sleep. -/
inductive ConnEv (α : Type) where
  | status : Bool → StatusMsg → ConnEv α
  | attempt : Nat → α → ConnEv α
  | sleep : Nat → ConnEv α
  deriving Repr, DecidableEq

/-- The inner per-round address loop of connect_to_mud (proxy/src/main.rs
lines 138-151): try each resolved address in order; the first success sends
`status(true, "Connected…")` and returns the connection, a failure (refused
or timed out, as decided by the oracle `ok round addr`) moves to the next
address. -/
def try_addrs {α : Type} (ok : Nat → α → Bool) (round : Nat) :
    List α → List (ConnEv α) × Option α
  | [] => ([], none)
  | a :: rest =>
    if ok round a then
      ([ConnEv.attempt round a, ConnEv.status true StatusMsg.connected], some a)
    else
      let r := try_addrs ok round rest
      (ConnEv.attempt round a :: r.1, r.2)

/-- The retry loop of connect_to_mud (proxy/src/main.rs lines 137-161), for
rounds `k, k+1, …` with `remaining` rounds still allowed (including the
current one): run the address loop; on success stop; otherwise, when rounds
remain, send `status(false, "retrying (k/3)…")`, sleep the fixed delay and
recurse. -/
def connect_rounds {α : Type} (ok : Nat → α → Bool) (addrs : List α) :
    Nat → Nat → List (ConnEv α) × Option α
  | _, 0 => ([], none)
  | k, remaining + 1 =>
    let r := try_addrs ok k addrs
    match r.2 with
    | some a => (r.1, some a)
    | none =>
      if remaining = 0 then (r.1, none)
      else
        let r2 := connect_rounds ok addrs (k + 1) remaining
        (r.1 ++ ConnEv.status false (StatusMsg.retrying k) ::
          ConnEv.sleep RETRY_DELAY_SECS :: r2.1, r2.2)

/-- The Upstream Connector connect_to_mud (proxy/src/main.rs lines 114-170;
the same logic appears inline in connection.rs lines 64-120), with DNS
resolution abstracted into the given resolved address list: send
`status(false, "Connecting…")`, run the retry loop, and on full exhaustion
send `status(false, "Failed to connect after 3 attempts")` and return none. -/
def connect_to_mud {α : Type} (ok : Nat → α → Bool) (addrs : List α) :
    List (ConnEv α) × Option α :=
  let r := connect_rounds ok addrs 1 MAX_RETRIES
  match r.2 with
  | some a => (ConnEv.status false StatusMsg.connecting :: r.1, some a)
  | none =>
    (ConnEv.status false StatusMsg.connecting ::
      (r.1 ++ [ConnEv.status false (StatusMsg.failed MAX_RETRIES)]), none)

/-- Client messages (proxy/src/main.rs lines 21-26 and 287-309): a command
with its data bytes, a disconnect request, a reconnect request, or any other
(ignored) message type. -/
inductive ClientMsg where
  | command : List Nat → ClientMsg
  | disconnect : ClientMsg
  | reconnect : ClientMsg
  | other : ClientMsg
  deriving Repr, DecidableEq

/-- The byte buffers enqueued to the upstream-write queue by the downstream
dispatcher of run_mud_loop (proxy/src/main.rs lines 279-321; connection.rs
lines 139-146 is the same mapping), for one run of the current bridge:
`command(d)` enqueues `d ++ [CR, LF]`; `disconnect` and `reconnect` end the
current bridge's dispatch; unknown messages are ignored. -/
def mud_writes : List ClientMsg → List (List Nat)
  | [] => []
  | ClientMsg.command d :: t => (d ++ [0x0D, 0x0A]) :: mud_writes t
  | ClientMsg.disconnect :: _ => []
  | ClientMsg.reconnect :: _ => []
  | ClientMsg.other :: t => mud_writes t

/-- Outcome of one upstream `read` call: a non-empty chunk of bytes
(`Ok(n)`, n > 0), a zero-length read (`Ok(0)`, server closed), or a read
error (`Err`). -/
inductive ReadRes where
  | chunk : List Nat → ReadRes
  | closed : ReadRes
  | failed : ReadRes
  deriving Repr, DecidableEq

/-- Observable events of the upstream read loop: a Telnet reply enqueued to
the upstream-write queue, a display chunk delivered downstream, or the
`status(false, "Disconnected")` message. -/
inductive BridgeEv where
  | sendUpstream : List Nat → BridgeEv
  | output : List Nat → BridgeEv
  | statusDisconnected : BridgeEv
  deriving Repr, DecidableEq

/-- The upstream read loop (connection.rs lines 149-198 together with the
final status emit; proxy/src/main.rs lines 224-276 is the same loop), driven
by the list of read outcomes it observes: a chunk is prepended with the held
remainder and run through the codec, its responses are enqueued upstream in
order, a non-empty display is delivered downstream, and the new remainder is
carried to the next read; a zero-length read or a read error ends the loop
with the `Disconnected` status. -/
def read_loop : List ReadRes → List Nat → List BridgeEv
  | [], _ => []
  | ReadRes.closed :: _, _ => [BridgeEv.statusDisconnected]
  | ReadRes.failed :: _, _ => [BridgeEv.statusDisconnected]
  | ReadRes.chunk bs :: t, rem =>
    let p := process_output (rem ++ bs)
    (p.responses.map BridgeEv.sendUpstream) ++
      (if p.display = [] then [] else [BridgeEv.output p.display]) ++
      read_loop t p.remainder

theorem process_output_nil : process_output [] = ⟨[], [], []⟩ := by
  rw [process_output.eq_def]

theorem process_output_plain (b : Nat) (hb : b ≠ IAC) (rest : List Nat) :
    process_output (b :: rest) =
      ⟨b :: (process_output rest).display, (process_output rest).responses,
        (process_output rest).remainder⟩ := by
  rw [process_output.eq_def]
  simp [hb]

theorem process_output_iac_end : process_output [IAC] = ⟨[], [], [IAC]⟩ := by
  rw [process_output.eq_def]
  rfl

theorem process_output_iac_iac (rest : List Nat) :
    process_output (IAC :: IAC :: rest) =
      ⟨IAC :: (process_output rest).display, (process_output rest).responses,
        (process_output rest).remainder⟩ := by
  rw [process_output.eq_def]
  simp

theorem process_output_neg_end (c : Nat) (h : c = DO ∨ c = WILL ∨ c = WONT ∨ c = DONT) :
    process_output [IAC, c] = ⟨[], [], [IAC, c]⟩ := by
  have hc : c ≠ IAC := by rcases h with h | h | h | h <;> subst h <;> decide
  rw [process_output.eq_def]
  simp [hc, h]

theorem process_output_do (o : Nat) (rest : List Nat) :
    process_output (IAC :: DO :: o :: rest) =
      ⟨(process_output rest).display, [IAC, WONT, o] :: (process_output rest).responses,
        (process_output rest).remainder⟩ := by
  rw [process_output.eq_def]
  norm_num [IAC, DO, WILL, WONT, DONT, SB]

theorem process_output_will (o : Nat) (rest : List Nat) :
    process_output (IAC :: WILL :: o :: rest) =
      ⟨(process_output rest).display, [IAC, DONT, o] :: (process_output rest).responses,
        (process_output rest).remainder⟩ := by
  rw [process_output.eq_def]
  norm_num [IAC, DO, WILL, WONT, DONT, SB]

theorem process_output_wont (o : Nat) (rest : List Nat) :
    process_output (IAC :: WONT :: o :: rest) = process_output rest := by
  rw [process_output.eq_def]
  norm_num [IAC, DO, WILL, WONT, DONT, SB]

theorem process_output_dont (o : Nat) (rest : List Nat) :
    process_output (IAC :: DONT :: o :: rest) = process_output rest := by
  rw [process_output.eq_def]
  norm_num [IAC, DO, WILL, WONT, DONT, SB]

theorem process_output_sb_some (rest2 t : List Nat) (h : skipSB rest2 = some t) :
    process_output (IAC :: SB :: rest2) = process_output t := by
  rw [process_output.eq_def]
  norm_num [IAC, DO, WILL, WONT, DONT, SB]
  rw [h]

theorem process_output_sb_none (rest2 : List Nat) (h : skipSB rest2 = none) :
    process_output (IAC :: SB :: rest2) = ⟨[], [], IAC :: SB :: rest2⟩ := by
  rw [process_output.eq_def]
  norm_num [IAC, DO, WILL, WONT, DONT, SB]
  rw [h]

theorem process_output_skip2 (c : Nat) (h1 : c ≠ IAC)
    (h2 : ¬(c = DO ∨ c = WILL ∨ c = WONT ∨ c = DONT)) (h3 : c ≠ SB) (rest2 : List Nat) :
    process_output (IAC :: c :: rest2) = process_output rest2 := by
  rw [process_output.eq_def]
  simp [h1, h2, h3]

theorem skipSB_append : ∀ (u t v : List Nat), skipSB u = some t →
    skipSB (u ++ v) = some (t ++ v) := by
  intro u
  induction u with
  | nil => intro t v h; simp [skipSB] at h
  | cons a u ih =>
    intro t v h
    cases u with
    | nil => simp [skipSB] at h
    | cons b u' =>
      rw [skipSB] at h
      by_cases hc : a = IAC ∧ b = SE
      · rw [if_pos hc] at h
        injection h with h2
        subst h2
        rw [List.cons_append, List.cons_append, skipSB, if_pos hc]
      · rw [if_neg hc] at h
        rw [List.cons_append, List.cons_append, skipSB, if_neg hc]
        exact ih t v h

theorem skipSB_some_structure : ∀ (u t : List Nat), skipSB u = some t →
    ∃ s : List Nat, u = s ++ t ∧ ∀ w : List Nat, skipSB (s ++ w) = some w := by
  intro u
  induction u with
  | nil => intro t h; simp [skipSB] at h
  | cons a u ih =>
    intro t h
    cases u with
    | nil => simp [skipSB] at h
    | cons b u' =>
      rw [skipSB] at h
      by_cases hc : a = IAC ∧ b = SE
      · rw [if_pos hc] at h
        injection h with h2
        subst h2
        refine ⟨[a, b], rfl, fun w => ?_⟩
        rw [List.cons_append, List.cons_append, List.nil_append, skipSB, if_pos hc]
      · rw [if_neg hc] at h
        obtain ⟨s', hs1, hs2⟩ := ih t h
        cases s' with
        | nil =>
          exfalso
          have := hs2 []
          simp [skipSB] at this
        | cons x s'' =>
          have hx : b = x ∧ u' = s'' ++ t := by
            constructor
            · exact (List.cons.injEq ..).mp hs1 |>.1
            · exact (List.cons.injEq ..).mp hs1 |>.2
          obtain ⟨hb, _⟩ := hx
          subst hb
          refine ⟨a :: b :: s'', congrArg (List.cons a) hs1, fun w => ?_⟩
          show skipSB (a :: b :: (s'' ++ w)) = some w
          rw [skipSB, if_neg hc]
          exact hs2 w

/-- The combined-buffer decomposition behind remainder reassembly: processing
`u ++ v` is processing `u`, then processing `u`'s remainder prepended to `v`,
with the two display buffers and the two response lists concatenated. -/
theorem process_output_append (u : List Nat) : ∀ v : List Nat,
    process_output (u ++ v) =
      ⟨(process_output u).display ++ (process_output ((process_output u).remainder ++ v)).display,
        (process_output u).responses ++
          (process_output ((process_output u).remainder ++ v)).responses,
        (process_output ((process_output u).remainder ++ v)).remainder⟩ := by
  induction u using process_output.induct with
  | case1 =>
    intro v
    simp [process_output_nil]
  | case2 =>
    intro v
    simp [process_output_iac_end]
  | case3 rest3 ih =>
    intro v
    simp only [List.cons_append, process_output_iac_iac, ih v, List.nil_append]
  | case4 opt h1 h2 =>
    intro v
    simp [process_output_neg_end opt h2]
  | case5 opt rest3 h1 h2 ih =>
    intro v
    simp only [List.cons_append, process_output_do, ih v, List.nil_append]
  | case6 opt rest3 h1 h2 h3 ih =>
    intro v
    simp only [List.cons_append, process_output_will, ih v, List.nil_append]
  | case7 c hc1 hc2 opt rest3 hc3 hc4 ih =>
    intro v
    have hcase : c = WONT ∨ c = DONT := by
      rcases hc2 with h | h | h | h
      · exact absurd h hc3
      · exact absurd h hc4
      · exact Or.inl h
      · exact Or.inr h
    rcases hcase with h | h <;> subst h
    · simp only [List.cons_append, process_output_wont, ih v]
    · simp only [List.cons_append, process_output_dont, ih v]
  | case8 rest3 t h h1 h2 ih =>
    intro v
    have h' := skipSB_append rest3 t v h
    rw [List.cons_append, List.cons_append, process_output_sb_some _ _ h',
      process_output_sb_some _ _ h, ih v]
  | case9 rest3 h h1 h2 =>
    intro v
    simp [process_output_sb_none _ h]
  | case10 c rest3 h1 h2 h3 ih =>
    intro v
    rw [List.cons_append, List.cons_append, process_output_skip2 c h1 h2 h3,
      process_output_skip2 c h1 h2 h3, ih v]
  | case11 b rest hb ih =>
    intro v
    simp only [List.cons_append, process_output_plain b hb, ih v, List.nil_append]

/-- Structure of every `process_output` result: the input splits into a fully
consumed prefix (producing exactly the returned display and responses, with
nothing left over) and the returned remainder, which is either empty or one
incomplete IAC sequence. -/
theorem process_output_split (raw : List Nat) :
    ∃ u w : List Nat, raw = u ++ w ∧ (process_output raw).remainder = w ∧
      process_output u =
        ⟨(process_output raw).display, (process_output raw).responses, []⟩ ∧
      (w = [] ∨ IncompleteSeq w) := by
  induction raw using process_output.induct with
  | case1 =>
    refine ⟨[], [], rfl, ?_, ?_, Or.inl rfl⟩ <;> simp [process_output_nil]
  | case2 =>
    refine ⟨[], [IAC], rfl, ?_, ?_, Or.inr (Or.inl rfl)⟩ <;>
      simp [process_output_iac_end, process_output_nil]
  | case3 rest3 ih =>
    obtain ⟨u, w, hsplit, hrem, hu, hinc⟩ := ih
    refine ⟨IAC :: IAC :: u, w, by rw [hsplit]; rfl, ?_, ?_, hinc⟩
    · rw [process_output_iac_iac]
      exact hrem
    · simp [process_output_iac_iac, hu]
  | case4 c h1 h2 =>
    refine ⟨[], [IAC, c], rfl, ?_, ?_, Or.inr (Or.inr (Or.inl ⟨c, rfl, h2⟩))⟩ <;>
      simp [process_output_neg_end c h2, process_output_nil]
  | case5 o rest3 h1 h2 ih =>
    obtain ⟨u, w, hsplit, hrem, hu, hinc⟩ := ih
    refine ⟨IAC :: DO :: o :: u, w, by rw [hsplit]; rfl, ?_, ?_, hinc⟩
    · rw [process_output_do]
      exact hrem
    · simp [process_output_do, hu]
  | case6 o rest3 h1 h2 h3 ih =>
    obtain ⟨u, w, hsplit, hrem, hu, hinc⟩ := ih
    refine ⟨IAC :: WILL :: o :: u, w, by rw [hsplit]; rfl, ?_, ?_, hinc⟩
    · rw [process_output_will]
      exact hrem
    · simp [process_output_will, hu]
  | case7 c hc1 hc2 o rest3 hc3 hc4 ih =>
    obtain ⟨u, w, hsplit, hrem, hu, hinc⟩ := ih
    have hcase : c = WONT ∨ c = DONT := by
      rcases hc2 with h | h | h | h
      · exact absurd h hc3
      · exact absurd h hc4
      · exact Or.inl h
      · exact Or.inr h
    refine ⟨IAC :: c :: o :: u, w, by rw [hsplit]; rfl, ?_, ?_, hinc⟩ <;>
      rcases hcase with h | h <;> subst h
    · rw [process_output_wont]
      exact hrem
    · rw [process_output_dont]
      exact hrem
    · simp [process_output_wont, hu]
    · simp [process_output_dont, hu]
  | case8 rest3 t h h1 h2 ih =>
    obtain ⟨u, w, hsplit, hrem, hu, hinc⟩ := ih
    obtain ⟨s, hs1, hs2⟩ := skipSB_some_structure rest3 t h
    refine ⟨IAC :: SB :: (s ++ u), w, ?_, ?_, ?_, hinc⟩
    · rw [hs1, hsplit]
      simp
    · rw [process_output_sb_some _ _ h]
      exact hrem
    · rw [process_output_sb_some _ _ (hs2 u), process_output_sb_some _ _ h]
      exact hu
  | case9 rest3 h h1 h2 =>
    refine ⟨[], IAC :: SB :: rest3, rfl, ?_, ?_,
      Or.inr (Or.inr (Or.inr ⟨rest3, rfl, h⟩))⟩ <;>
      simp [process_output_sb_none _ h, process_output_nil]
  | case10 c rest3 h1 h2 h3 ih =>
    obtain ⟨u, w, hsplit, hrem, hu, hinc⟩ := ih
    refine ⟨IAC :: c :: u, w, by rw [hsplit]; rfl, ?_, ?_, hinc⟩
    · rw [process_output_skip2 c h1 h2 h3]
      exact hrem
    · rw [process_output_skip2 c h1 h2 h3, process_output_skip2 c h1 h2 h3]
      exact hu
  | case11 b rest hb ih =>
    obtain ⟨u, w, hsplit, hrem, hu, hinc⟩ := ih
    refine ⟨b :: u, w, by rw [hsplit]; rfl, ?_, ?_, hinc⟩
    · rw [process_output_plain b hb]
      exact hrem
    · simp [process_output_plain b hb, hu]

theorem proxy_process_output_nil : proxy_process_output [] = ⟨[], [], [], false⟩ := by
  rw [proxy_process_output.eq_def]

theorem proxy_process_output_plain (b : Nat) (hb : b ≠ IAC) (rest : List Nat) :
    proxy_process_output (b :: rest) =
      ⟨b :: (proxy_process_output rest).display, (proxy_process_output rest).responses,
        (proxy_process_output rest).remainder, (proxy_process_output rest).ga⟩ := by
  rw [proxy_process_output.eq_def]
  simp [hb]

theorem proxy_process_output_iac_end : proxy_process_output [IAC] = ⟨[], [], [IAC], false⟩ := by
  rw [proxy_process_output.eq_def]
  rfl

theorem proxy_process_output_iac_iac (rest : List Nat) :
    proxy_process_output (IAC :: IAC :: rest) =
      ⟨IAC :: (proxy_process_output rest).display, (proxy_process_output rest).responses,
        (proxy_process_output rest).remainder, (proxy_process_output rest).ga⟩ := by
  rw [proxy_process_output.eq_def]
  simp

theorem proxy_process_output_neg_end (c : Nat)
    (h : c = DO ∨ c = WILL ∨ c = WONT ∨ c = DONT) :
    proxy_process_output [IAC, c] = ⟨[], [], [IAC, c], false⟩ := by
  have hc : c ≠ IAC := by rcases h with h | h | h | h <;> subst h <;> decide
  rw [proxy_process_output.eq_def]
  simp [hc, h]

theorem proxy_process_output_do (o : Nat) (rest : List Nat) :
    proxy_process_output (IAC :: DO :: o :: rest) =
      ⟨(proxy_process_output rest).display,
        [IAC, WONT, o] :: (proxy_process_output rest).responses,
        (proxy_process_output rest).remainder, (proxy_process_output rest).ga⟩ := by
  rw [proxy_process_output.eq_def]
  norm_num [IAC, DO, WILL, WONT, DONT, SB]

theorem proxy_process_output_will (o : Nat) (rest : List Nat) :
    proxy_process_output (IAC :: WILL :: o :: rest) =
      ⟨(proxy_process_output rest).display,
        [IAC, DONT, o] :: (proxy_process_output rest).responses,
        (proxy_process_output rest).remainder, (proxy_process_output rest).ga⟩ := by
  rw [proxy_process_output.eq_def]
  norm_num [IAC, DO, WILL, WONT, DONT, SB]

theorem proxy_process_output_wont (o : Nat) (rest : List Nat) :
    proxy_process_output (IAC :: WONT :: o :: rest) = proxy_process_output rest := by
  rw [proxy_process_output.eq_def]
  norm_num [IAC, DO, WILL, WONT, DONT, SB]

theorem proxy_process_output_dont (o : Nat) (rest : List Nat) :
    proxy_process_output (IAC :: DONT :: o :: rest) = proxy_process_output rest := by
  rw [proxy_process_output.eq_def]
  norm_num [IAC, DO, WILL, WONT, DONT, SB]

theorem proxy_process_output_sb_some (rest2 t : List Nat) (h : skipSB rest2 = some t) :
    proxy_process_output (IAC :: SB :: rest2) = proxy_process_output t := by
  rw [proxy_process_output.eq_def]
  norm_num [IAC, DO, WILL, WONT, DONT, SB]
  rw [h]

theorem proxy_process_output_sb_none (rest2 : List Nat) (h : skipSB rest2 = none) :
    proxy_process_output (IAC :: SB :: rest2) = ⟨[], [], IAC :: SB :: rest2, false⟩ := by
  rw [proxy_process_output.eq_def]
  norm_num [IAC, DO, WILL, WONT, DONT, SB]
  rw [h]

theorem proxy_process_output_skip2 (c : Nat) (h1 : c ≠ IAC)
    (h2 : ¬(c = DO ∨ c = WILL ∨ c = WONT ∨ c = DONT)) (h3 : c ≠ SB) (rest2 : List Nat) :
    proxy_process_output (IAC :: c :: rest2) =
      ⟨(proxy_process_output rest2).display, (proxy_process_output rest2).responses,
        (proxy_process_output rest2).remainder,
        decide (c = GA) || (proxy_process_output rest2).ga⟩ := by
  rw [proxy_process_output.eq_def]
  simp [h1, h2, h3]

/-- Combined-buffer decomposition for the proxy codec: besides concatenating
display bytes and responses, the go-ahead flags of the two runs are or-ed. -/
theorem proxy_process_output_append (u : List Nat) : ∀ v : List Nat,
    proxy_process_output (u ++ v) =
      ⟨(proxy_process_output u).display ++
          (proxy_process_output ((proxy_process_output u).remainder ++ v)).display,
        (proxy_process_output u).responses ++
          (proxy_process_output ((proxy_process_output u).remainder ++ v)).responses,
        (proxy_process_output ((proxy_process_output u).remainder ++ v)).remainder,
        ((proxy_process_output u).ga ||
          (proxy_process_output ((proxy_process_output u).remainder ++ v)).ga)⟩ := by
  induction u using proxy_process_output.induct with
  | case1 =>
    intro v
    simp [proxy_process_output_nil]
  | case2 =>
    intro v
    simp [proxy_process_output_iac_end]
  | case3 rest3 ih =>
    intro v
    simp only [List.cons_append, proxy_process_output_iac_iac, ih v, List.nil_append]
  | case4 opt h1 h2 =>
    intro v
    simp [proxy_process_output_neg_end opt h2]
  | case5 opt rest3 h1 h2 ih =>
    intro v
    simp only [List.cons_append, proxy_process_output_do, ih v, List.nil_append]
  | case6 opt rest3 h1 h2 h3 ih =>
    intro v
    simp only [List.cons_append, proxy_process_output_will, ih v, List.nil_append]
  | case7 c hc1 hc2 opt rest3 hc3 hc4 ih =>
    intro v
    have hcase : c = WONT ∨ c = DONT := by
      rcases hc2 with h | h | h | h
      · exact absurd h hc3
      · exact absurd h hc4
      · exact Or.inl h
      · exact Or.inr h
    rcases hcase with h | h <;> subst h
    · simp only [List.cons_append, proxy_process_output_wont, ih v]
    · simp only [List.cons_append, proxy_process_output_dont, ih v]
  | case8 rest3 t h h1 h2 ih =>
    intro v
    have h' := skipSB_append rest3 t v h
    rw [List.cons_append, List.cons_append, proxy_process_output_sb_some _ _ h',
      proxy_process_output_sb_some _ _ h, ih v]
  | case9 rest3 h h1 h2 =>
    intro v
    simp [proxy_process_output_sb_none _ h]
  | case10 c rest3 h1 h2 h3 ih =>
    intro v
    rw [List.cons_append, List.cons_append, proxy_process_output_skip2 c h1 h2 h3,
      proxy_process_output_skip2 c h1 h2 h3, ih v]
    simp [Bool.or_assoc]
  | case11 b rest hb ih =>
    intro v
    simp only [List.cons_append, proxy_process_output_plain b hb, ih v, List.nil_append]

theorem skipSB_finds_terminator : ∀ s : List Nat, noSE s = true →
    ∀ t : List Nat, skipSB (s ++ IAC :: SE :: t) = some t := by
  intro s
  induction s with
  | nil =>
    intro _ t
    rw [List.nil_append, skipSB, if_pos ⟨rfl, rfl⟩]
  | cons a s ih =>
    intro h t
    cases s with
    | nil =>
      rw [List.cons_append, List.nil_append, skipSB,
        if_neg (by rintro ⟨-, h2⟩; exact absurd h2 (by decide)), skipSB, if_pos ⟨rfl, rfl⟩]
    | cons b s' =>
      rw [noSE] at h
      by_cases hc : a = IAC ∧ b = SE
      · rw [if_pos hc] at h
        exact absurd h (by decide)
      · rw [if_neg hc] at h
        rw [List.cons_append, List.cons_append, skipSB, if_neg hc]
        exact ih h t

theorem responses_shape (raw : List Nat) :
    ∀ r ∈ (process_output raw).responses, ∃ o, r = [IAC, WONT, o] ∨ r = [IAC, DONT, o] := by
  induction raw using process_output.induct with
  | case1 => simp [process_output_nil]
  | case2 => simp [process_output_iac_end]
  | case3 rest3 ih => simpa only [process_output_iac_iac] using ih
  | case4 c h1 h2 => simp [process_output_neg_end c h2]
  | case5 o rest3 h1 h2 ih =>
    intro r hr
    rw [process_output_do] at hr
    rcases List.mem_cons.mp hr with h | h
    · exact ⟨o, Or.inl h⟩
    · exact ih r h
  | case6 o rest3 h1 h2 h3 ih =>
    intro r hr
    rw [process_output_will] at hr
    rcases List.mem_cons.mp hr with h | h
    · exact ⟨o, Or.inr h⟩
    · exact ih r h
  | case7 c hc1 hc2 o rest3 hc3 hc4 ih =>
    have hcase : c = WONT ∨ c = DONT := by
      rcases hc2 with h | h | h | h
      · exact absurd h hc3
      · exact absurd h hc4
      · exact Or.inl h
      · exact Or.inr h
    rcases hcase with h | h <;> subst h
    · simpa only [process_output_wont] using ih
    · simpa only [process_output_dont] using ih
  | case8 rest3 t h h1 h2 ih =>
    simpa only [process_output_sb_some _ _ h] using ih
  | case9 rest3 h h1 h2 => simp [process_output_sb_none _ h]
  | case10 c rest3 h1 h2 h3 ih =>
    simpa only [process_output_skip2 c h1 h2 h3] using ih
  | case11 b rest hb ih =>
    simpa only [process_output_plain b hb] using ih

/-- A pure stream of complete 3-byte negotiation commands is answered by the
per-command replies, in the order the commands occur: WONT for DO, DONT for
WILL, nothing for WONT/DONT. -/
theorem negotiation_stream : ∀ cmds : List (Nat × Nat),
    (∀ p ∈ cmds, p.1 = DO ∨ p.1 = WILL ∨ p.1 = WONT ∨ p.1 = DONT) →
    process_output (cmds.flatMap fun p => [IAC, p.1, p.2]) =
      ⟨[], cmds.filterMap fun p =>
          if p.1 = DO then some [IAC, WONT, p.2]
          else if p.1 = WILL then some [IAC, DONT, p.2] else none, []⟩ := by
  intro cmds
  induction cmds with
  | nil =>
    intro _
    simp [process_output_nil]
  | cons p t ih =>
    intro h
    obtain ⟨c, o⟩ := p
    have hc := h (c, o) (List.mem_cons_self _ _)
    have ht := ih fun q hq => h q (List.mem_cons_of_mem _ hq)
    simp only at hc
    rcases hc with h1 | h1 | h1 | h1 <;> subst h1 <;>
      simp only [List.flatMap_cons, List.cons_append, List.nil_append, List.filterMap_cons]
    · rw [process_output_do, ht]
      simp [DO, WILL]
    · rw [process_output_will, ht]
      simp [DO, WILL]
    · rw [process_output_wont, ht]
      simp [DO, WILL, WONT]
    · rw [process_output_dont, ht]
      simp [DO, WILL, DONT]

theorem try_addrs_all_fail {α : Type} (ok : Nat → α → Bool) (round : Nat) :
    ∀ addrs : List α, (∀ a ∈ addrs, ok round a = false) →
      try_addrs ok round addrs = (addrs.map (ConnEv.attempt round), none) := by
  intro addrs
  induction addrs with
  | nil => intro _; rfl
  | cons a rest ih =>
    intro h
    rw [try_addrs, if_neg (by rw [h a (List.mem_cons_self _ _)]; exact Bool.false_ne_true),
      ih fun b hb => h b (List.mem_cons_of_mem _ hb)]
    simp

theorem try_addrs_first_success {α : Type} (ok : Nat → α → Bool) (round : Nat) (a : α)
    (post : List α) (ha : ok round a = true) :
    ∀ pre : List α, (∀ b ∈ pre, ok round b = false) →
      try_addrs ok round (pre ++ a :: post) =
        (pre.map (ConnEv.attempt round) ++
          [ConnEv.attempt round a, ConnEv.status true StatusMsg.connected], some a) := by
  intro pre
  induction pre with
  | nil =>
    intro _
    rw [List.nil_append, try_addrs, if_pos ha]
    simp
  | cons b rest ih =>
    intro h
    rw [List.cons_append, try_addrs,
      if_neg (by rw [h b (List.mem_cons_self _ _)]; exact Bool.false_ne_true),
      ih fun x hx => h x (List.mem_cons_of_mem _ hx)]
    simp

/-- C1: for every byte sequence and every split position into two reads,
processing the first read and then the returned remainder prepended to the
second read yields, concatenating the two calls' display buffers and
response lists, the same display and the same responses in the same order as
one `process_output` call on the whole sequence. -/
theorem c1_codec_reassembly (raw : List Nat) (p : Nat) :
    (process_output (raw.take p)).display ++
        (process_output ((process_output (raw.take p)).remainder ++ raw.drop p)).display =
      (process_output raw).display ∧
    (process_output (raw.take p)).responses ++
        (process_output ((process_output (raw.take p)).remainder ++ raw.drop p)).responses =
      (process_output raw).responses := by
  have h := process_output_append (raw.take p) (raw.drop p)
  rw [List.take_append_drop] at h
  exact ⟨by rw [h], by rw [h]⟩

/-- C2: every input splits into a consumed prefix and the returned remainder;
the prefix alone already produces exactly the returned display and responses
(so no byte of an incomplete trailing sequence leaks into either), and the
remainder is empty or exactly one incomplete sequence — a lone 0xFF, an
incomplete 3-byte negotiation, or an unterminated subnegotiation whose
remainder begins at its `IAC SB` bytes. -/
theorem c2_remainder_incomplete (raw : List Nat) :
    ∃ u w : List Nat, raw = u ++ w ∧ (process_output raw).remainder = w ∧
      process_output u =
        ⟨(process_output raw).display, (process_output raw).responses, []⟩ ∧
      (w = [] ∨ IncompleteSeq w) :=
  process_output_split raw

/-- C3: every reply produced by the codec is `IAC WONT opt` (for DO) or
`IAC DONT opt` (for WILL) — never DO or WILL replies; a stream of complete
negotiations is answered in order with exactly those replies and none for
WONT/DONT; and the four concrete examples of the spec hold. -/
theorem c3_negotiation_replies :
    (∀ raw : List Nat, ∀ r ∈ (process_output raw).responses,
        ∃ o, r = [0xFF, 0xFC, o] ∨ r = [0xFF, 0xFE, o]) ∧
    (∀ cmds : List (Nat × Nat),
        (∀ q ∈ cmds, q.1 = 0xFD ∨ q.1 = 0xFB ∨ q.1 = 0xFC ∨ q.1 = 0xFE) →
        process_output (cmds.flatMap fun q => [0xFF, q.1, q.2]) =
          ⟨[], cmds.filterMap fun q =>
              if q.1 = 0xFD then some [0xFF, 0xFC, q.2]
              else if q.1 = 0xFB then some [0xFF, 0xFE, q.2] else none, []⟩) ∧
    process_output [0xFF, 0xFD, 6] = ⟨[], [[0xFF, 0xFC, 6]], []⟩ ∧
    process_output [0xFF, 0xFB, 1] = ⟨[], [[0xFF, 0xFE, 1]], []⟩ ∧
    (process_output [0xFF, 0xFC, 1]).responses = [] ∧
    (process_output [0xFF, 0xFE, 1]).responses = [] := by
  refine ⟨responses_shape, negotiation_stream, ?_, ?_, ?_, ?_⟩
  · show process_output (IAC :: DO :: 6 :: []) = ⟨[], [[IAC, WONT, 6]], []⟩
    rw [process_output_do, process_output_nil]
  · show process_output (IAC :: WILL :: 1 :: []) = ⟨[], [[IAC, DONT, 1]], []⟩
    rw [process_output_will, process_output_nil]
  · show (process_output (IAC :: WONT :: 1 :: [])).responses = []
    rw [process_output_wont, process_output_nil]
  · show (process_output (IAC :: DONT :: 1 :: [])).responses = []
    rw [process_output_dont, process_output_nil]

theorem c3_negotiation_replies_witness :
    (∃ o, ([0xFF, 0xFC, 6] : List Nat) = [0xFF, 0xFC, o] ∨
        ([0xFF, 0xFC, 6] : List Nat) = [0xFF, 0xFE, o]) ∧
    process_output
        ([((0xFD : Nat), (6 : Nat)), (0xFB, 1), (0xFC, 2)].flatMap fun q => [0xFF, q.1, q.2]) =
      ⟨[], [[0xFF, 0xFC, 6], [0xFF, 0xFE, 1]], []⟩ := by
  constructor
  · refine c3_negotiation_replies.1 [0xFF, 0xFD, 6] [0xFF, 0xFC, 6] ?_
    rw [show ([0xFF, 0xFD, 6] : List Nat) = IAC :: DO :: 6 :: [] from rfl,
      process_output_do, process_output_nil]
    exact List.mem_cons_self _ _
  · have h := c3_negotiation_replies.2.1 [((0xFD : Nat), (6 : Nat)), (0xFB, 1), (0xFC, 2)]
      (by decide)
    rw [h]
    rfl

/-- C4: processing the two-byte input `0xFF 0xFF` yields the single literal
0xFF display byte, no responses, and an empty remainder. -/
theorem c4_literal_escape : process_output [0xFF, 0xFF] = ⟨[0xFF], [], []⟩ := by
  show process_output (IAC :: IAC :: []) = ⟨[IAC], [], []⟩
  rw [process_output_iac_iac, process_output_nil]

/-- C5: whenever the input contains a complete go-ahead command `IAC GA`
reached at a clean scan boundary (everything before it is fully consumed),
the proxy codec's result carries `ga = true`, marking the current display
accumulation as ending on a prompt boundary. -/
theorem c5_go_ahead_flag (raw u v : List Nat) (hsplit : raw = u ++ 0xFF :: 0xF9 :: v)
    (hrem : (proxy_process_output u).remainder = []) :
    (proxy_process_output raw).ga = true := by
  subst hsplit
  rw [proxy_process_output_append u (0xFF :: 0xF9 :: v), hrem, List.nil_append]
  have hga : (proxy_process_output (IAC :: GA :: v)).ga = true := by
    rw [proxy_process_output_skip2 GA (by decide) (by decide) (by decide)]
    simp
  show ((proxy_process_output u).ga || (proxy_process_output (IAC :: GA :: v)).ga) = true
  rw [hga, Bool.or_true]

theorem c5_go_ahead_flag_witness :
    (proxy_process_output [0x41, 0xFF, 0xF9]).ga = true :=
  c5_go_ahead_flag [0x41, 0xFF, 0xF9] [0x41] [] rfl
    (by rw [proxy_process_output_plain 0x41 (by decide), proxy_process_output_nil])

/-- C6: with resolved addresses given, if every individual attempt fails the
connector performs exactly 3 rounds over the full address list with exactly 2
inter-round delays of `RETRY_DELAY_SECS`, emitting `status(false, retrying k)`
after rounds 1 and 2 and `status(false, failed 3)` at the end, returning no
connection; conversely a first success ends the run immediately with
`status(true, connected)` and that connection, with no further addresses or
rounds tried. -/
theorem c6_retry_bound :
    (∀ (α : Type) (ok : Nat → α → Bool) (addrs : List α), (∀ r a, ok r a = false) →
      connect_to_mud ok addrs =
        (ConnEv.status false StatusMsg.connecting ::
          (addrs.map (ConnEv.attempt 1) ++
            ConnEv.status false (StatusMsg.retrying 1) :: ConnEv.sleep RETRY_DELAY_SECS ::
              (addrs.map (ConnEv.attempt 2) ++
                ConnEv.status false (StatusMsg.retrying 2) :: ConnEv.sleep RETRY_DELAY_SECS ::
                  (addrs.map (ConnEv.attempt 3) ++
                    [ConnEv.status false (StatusMsg.failed 3)]))), none)) ∧
    (∀ (α : Type) (ok : Nat → α → Bool) (pre post : List α) (a : α),
      (∀ b ∈ pre, ok 1 b = false) → ok 1 a = true →
      connect_to_mud ok (pre ++ a :: post) =
        (ConnEv.status false StatusMsg.connecting ::
          (pre.map (ConnEv.attempt 1) ++
            [ConnEv.attempt 1 a, ConnEv.status true StatusMsg.connected]), some a)) ∧
    (∀ (α : Type) (ok : Nat → α → Bool) (pre post : List α) (a : α),
      (∀ b ∈ pre ++ a :: post, ok 1 b = false) → (∀ b ∈ pre, ok 2 b = false) →
      ok 2 a = true →
      connect_to_mud ok (pre ++ a :: post) =
        (ConnEv.status false StatusMsg.connecting ::
          ((pre ++ a :: post).map (ConnEv.attempt 1) ++
            ConnEv.status false (StatusMsg.retrying 1) :: ConnEv.sleep RETRY_DELAY_SECS ::
              (pre.map (ConnEv.attempt 2) ++
                [ConnEv.attempt 2 a, ConnEv.status true StatusMsg.connected])), some a)) := by
  refine ⟨?_, ?_, ?_⟩
  · intro α ok addrs h
    have h1 := try_addrs_all_fail ok 1 addrs fun a _ => h 1 a
    have h2 := try_addrs_all_fail ok 2 addrs fun a _ => h 2 a
    have h3 := try_addrs_all_fail ok 3 addrs fun a _ => h 3 a
    have hr3 : connect_rounds ok addrs 3 1 = (addrs.map (ConnEv.attempt 3), none) := by
      rw [show (1 : Nat) = 0 + 1 from rfl, connect_rounds, h3]
      rfl
    have hr2 : connect_rounds ok addrs 2 2 =
        (addrs.map (ConnEv.attempt 2) ++
          ConnEv.status false (StatusMsg.retrying 2) :: ConnEv.sleep RETRY_DELAY_SECS ::
            addrs.map (ConnEv.attempt 3), none) := by
      rw [show (2 : Nat) = 1 + 1 from rfl, connect_rounds, h2]
      simp [hr3]
    have hr1 : connect_rounds ok addrs 1 MAX_RETRIES =
        (addrs.map (ConnEv.attempt 1) ++
          ConnEv.status false (StatusMsg.retrying 1) :: ConnEv.sleep RETRY_DELAY_SECS ::
            (addrs.map (ConnEv.attempt 2) ++
              ConnEv.status false (StatusMsg.retrying 2) :: ConnEv.sleep RETRY_DELAY_SECS ::
                addrs.map (ConnEv.attempt 3)), none) := by
      rw [show MAX_RETRIES = 2 + 1 from rfl, connect_rounds, h1]
      simp [hr2]
    rw [connect_to_mud, hr1]
    simp [MAX_RETRIES, List.append_assoc]
  · intro α ok pre post a hpre ha
    have h1 := try_addrs_first_success ok 1 a post ha pre hpre
    have hr : connect_rounds ok (pre ++ a :: post) 1 MAX_RETRIES =
        (pre.map (ConnEv.attempt 1) ++
          [ConnEv.attempt 1 a, ConnEv.status true StatusMsg.connected], some a) := by
      rw [show MAX_RETRIES = 2 + 1 from rfl, connect_rounds, h1]
    rw [connect_to_mud, hr]
  · intro α ok pre post a h1all hpre ha
    have h1 := try_addrs_all_fail ok 1 (pre ++ a :: post) fun b hb => h1all b hb
    have h2 := try_addrs_first_success ok 2 a post ha pre hpre
    have hr2 : connect_rounds ok (pre ++ a :: post) 2 2 =
        (pre.map (ConnEv.attempt 2) ++
          [ConnEv.attempt 2 a, ConnEv.status true StatusMsg.connected], some a) := by
      rw [show (2 : Nat) = 1 + 1 from rfl, connect_rounds, h2]
    have hr : connect_rounds ok (pre ++ a :: post) 1 MAX_RETRIES =
        ((pre ++ a :: post).map (ConnEv.attempt 1) ++
          ConnEv.status false (StatusMsg.retrying 1) :: ConnEv.sleep RETRY_DELAY_SECS ::
            (pre.map (ConnEv.attempt 2) ++
              [ConnEv.attempt 2 a, ConnEv.status true StatusMsg.connected]), some a) := by
      rw [show MAX_RETRIES = 2 + 1 from rfl, connect_rounds, h1]
      simp [hr2]
    rw [connect_to_mud, hr]

theorem c6_retry_bound_witness :
    connect_to_mud (fun _ _ => (false : Bool)) [7] =
      (ConnEv.status false StatusMsg.connecting ::
        ([7].map (ConnEv.attempt 1) ++
          ConnEv.status false (StatusMsg.retrying 1) :: ConnEv.sleep RETRY_DELAY_SECS ::
            ([7].map (ConnEv.attempt 2) ++
              ConnEv.status false (StatusMsg.retrying 2) :: ConnEv.sleep RETRY_DELAY_SECS ::
                ([7].map (ConnEv.attempt 3) ++
                  [ConnEv.status false (StatusMsg.failed 3)]))), none) ∧
    connect_to_mud (fun _ a => decide (a = 7)) ([] ++ 7 :: [2]) =
      (ConnEv.status false StatusMsg.connecting ::
        (List.map (ConnEv.attempt 1) [] ++
          [ConnEv.attempt 1 7, ConnEv.status true StatusMsg.connected]), some 7) ∧
    connect_to_mud (fun r a => decide (r = 2 ∧ a = 7)) ([] ++ 7 :: []) =
      (ConnEv.status false StatusMsg.connecting ::
        (([] ++ 7 :: []).map (ConnEv.attempt 1) ++
          ConnEv.status false (StatusMsg.retrying 1) :: ConnEv.sleep RETRY_DELAY_SECS ::
            (List.map (ConnEv.attempt 2) [] ++
              [ConnEv.attempt 2 7, ConnEv.status true StatusMsg.connected])), some 7) :=
  ⟨c6_retry_bound.1 Nat _ [7] fun _ _ => rfl,
    c6_retry_bound.2.1 Nat _ [] [2] 7 (fun b hb => absurd hb (List.not_mem_nil b)) (by decide),
    c6_retry_bound.2.2 Nat _ [] [] 7 (by decide)
      (fun b hb => absurd hb (List.not_mem_nil b)) (by decide)⟩

/-- C7: every `command(text)` message handled while a bridge runs enqueues
exactly `text ++ [CR, LF]` to the upstream-write queue, in the order the
commands were received; in particular `command("look")` produces the bytes
of `look\r\n`. -/
theorem c7_command_crlf :
    (∀ ds : List (List Nat),
        mud_writes (ds.map ClientMsg.command) = ds.map fun d => d ++ [0x0D, 0x0A]) ∧
    mud_writes [ClientMsg.command [0x6C, 0x6F, 0x6F, 0x6B]] =
      [[0x6C, 0x6F, 0x6F, 0x6B, 0x0D, 0x0A]] := by
  constructor
  · intro ds
    induction ds with
    | nil => rfl
    | cons d t ih => simp [mud_writes, ih]
  · rfl

theorem read_loop_chunk (bs : List Nat) (t : List ReadRes) (rem : List Nat) :
    read_loop (ReadRes.chunk bs :: t) rem =
      ((process_output (rem ++ bs)).responses.map BridgeEv.sendUpstream) ++
        (if (process_output (rem ++ bs)).display = [] then []
          else [BridgeEv.output (process_output (rem ++ bs)).display]) ++
        read_loop t (process_output (rem ++ bs)).remainder := by
  rw [read_loop]

/-- C8: whenever the upstream read loop observes a zero-length read or a read
error after any run of successful chunk reads, the produced events do not
depend on anything after that observation (the loop never continues past it)
and the event trace ends with the `Disconnected` status message. -/
theorem c8_read_end_disconnected :
    ∀ (pre : List ReadRes) (x : ReadRes) (post post2 : List ReadRes) (rem : List Nat),
      (∀ r ∈ pre, ∃ bs, r = ReadRes.chunk bs) →
      (x = ReadRes.closed ∨ x = ReadRes.failed) →
      read_loop (pre ++ x :: post) rem = read_loop (pre ++ x :: post2) rem ∧
      ∃ evs, read_loop (pre ++ x :: post) rem = evs ++ [BridgeEv.statusDisconnected] := by
  intro pre
  induction pre with
  | nil =>
    intro x post post2 rem _ hx
    rcases hx with h | h <;> subst h <;> exact ⟨rfl, [], rfl⟩
  | cons r pre ih =>
    intro x post post2 rem hpre hx
    obtain ⟨bs, hbs⟩ := hpre r (List.mem_cons_self _ _)
    subst hbs
    have ih' := ih x post post2 (process_output (rem ++ bs)).remainder
      (fun q hq => hpre q (List.mem_cons_of_mem _ hq)) hx
    constructor
    · rw [List.cons_append, List.cons_append, read_loop_chunk, read_loop_chunk, ih'.1]
    · obtain ⟨evs, hevs⟩ := ih'.2
      refine ⟨(process_output (rem ++ bs)).responses.map BridgeEv.sendUpstream ++
        ((if (process_output (rem ++ bs)).display = [] then []
          else [BridgeEv.output (process_output (rem ++ bs)).display]) ++ evs), ?_⟩
      rw [List.cons_append, read_loop_chunk, hevs]
      simp [List.append_assoc]

theorem c8_read_end_disconnected_witness :
    read_loop ([ReadRes.chunk [0x41]] ++ ReadRes.closed :: [ReadRes.chunk [0x42]]) [] =
        read_loop ([ReadRes.chunk [0x41]] ++ ReadRes.closed :: []) [] ∧
    ∃ evs, read_loop ([ReadRes.chunk [0x41]] ++ ReadRes.closed :: [ReadRes.chunk [0x42]]) [] =
        evs ++ [BridgeEv.statusDisconnected] :=
  c8_read_end_disconnected [ReadRes.chunk [0x41]] ReadRes.closed [ReadRes.chunk [0x42]] [] []
    (fun r hr => ⟨[0x41], by simpa using hr⟩) (Or.inl rfl)

/-- C9: a complete subnegotiation block `IAC SB … IAC SE` is discarded in
full — no byte of the block reaches the display and no reply is generated
for it — and the spec's concrete example holds. -/
theorem c9_subnegotiation_discard :
    (∀ s t : List Nat, noSE s = true →
        process_output (0xFF :: 0xFA :: (s ++ 0xFF :: 0xF0 :: t)) = process_output t) ∧
    process_output [0xFF, 0xFA, 24, 0, 0xFF, 0xF0, 0x42] = ⟨[0x42], [], []⟩ := by
  constructor
  · intro s t h
    exact process_output_sb_some _ _ (skipSB_finds_terminator s h t)
  · have hterm := skipSB_finds_terminator [24, 0] (by decide) [0x42]
    have h2 := process_output_sb_some _ _ hterm
    rw [show ([0xFF, 0xFA, 24, 0, 0xFF, 0xF0, 0x42] : List Nat) =
      IAC :: SB :: ([24, 0] ++ IAC :: SE :: [0x42]) from rfl, h2,
      process_output_plain 0x42 (by decide), process_output_nil]

theorem c9_subnegotiation_discard_witness :
    process_output (0xFF :: 0xFA :: ([24] ++ 0xFF :: 0xF0 :: [0x41])) = process_output [0x41] :=
  c9_subnegotiation_discard.1 [24] [0x41] (by decide)

/-- C10: the remainder returned by `process_output` is either empty or a
suffix of the input whose first byte is the escape marker 0xFF, so carried
bytes always re-enter the next scan at a control-sequence boundary. -/
theorem c10_remainder_starts_iac (raw : List Nat) :
    (process_output raw).remainder = [] ∨
      ((process_output raw).remainder.head? = some 0xFF ∧
        List.IsSuffix (process_output raw).remainder raw) := by
  obtain ⟨u, w, hsplit, hrem, -, hinc⟩ := process_output_split raw
  rcases hinc with hw | hw
  · exact Or.inl (hrem.trans hw)
  · refine Or.inr ⟨?_, ?_⟩
    · rw [hrem]
      rcases hw with h | h | h
      · rw [h]
        rfl
      · obtain ⟨c, hc, -⟩ := h
        rw [hc]
        rfl
      · obtain ⟨s, hs, -⟩ := h
        rw [hs]
        rfl
    · rw [hrem]
      exact ⟨u, hsplit.symm⟩

end Dartforge
